import Mathlib

/-!
# Verification of the HugeCTR data-distributor specification

The repository ships only the declarations (`data_distributor.hpp`,
`gather_layer.hpp`, `resource_manager.hpp`); the implementation
translation units are absent.  The definitions below are therefore
modelled from the specification's description of each component, staying
as close as possible to the declared interfaces.
-/

namespace HugeCTR

/-- Modelled from the spec: the static model-parallel `ShardAssignment` is a
modulo over key value and shard count (spec §3); the implementing source
(`data_distributor.cu`) is absent from the repository, only its declaration
`data_distributor.hpp` is present. -/
def shardOf (numUnits : ℕ) (k : ℕ) : ℕ := k % numUnits

/-- Modelled from the spec (§4.2 KeyLabelingOperator): every key of one unit
is labeled with its destination unit (the shard owner). -/
def labelKeys (numUnits : ℕ) (ks : List ℕ) : List (ℕ × ℕ) :=
  ks.map (fun k => (k, shardOf numUnits k))

/-- Modelled from the spec (§4.3/§4.4): the reordered key payload one unit
sends to destination unit `d` — the keys labeled `d`, in original order. -/
def sendPayload (numUnits : ℕ) (ks : List ℕ) (d : ℕ) : List ℕ :=
  ks.filter (fun k => shardOf numUnits k == d)

/-- The per-destination send count established by the counting operators. -/
def sendCount (numUnits : ℕ) (ks : List ℕ) (d : ℕ) : ℕ :=
  (sendPayload numUnits ks d).length

/-- Modelled from the spec (§4.4 Phase 1, `all2all_keys_per_bucket`): unit `u`
receives from every peer that peer's send count towards `u`.  `units` lists
every unit's local key stream. -/
def all2all_keys_per_bucket (numUnits : ℕ) (units : List (List ℕ)) (u : ℕ) :
    List ℕ :=
  units.map (fun ks => sendCount numUnits ks u)

/-- Modelled from the spec (§4.4 Phase 2, `all2all_keys`): unit `u` receives
the concatenation of the payloads sent to it by all peers. -/
def all2all_keys (numUnits : ℕ) (units : List (List ℕ)) (u : ℕ) : List ℕ :=
  (units.map (fun ks => sendPayload numUnits ks u)).flatten

/-- Modelled from the spec (§3 BucketRange): prefix-sum offsets delimiting
buckets within a key stream, with the leading 0. -/
def prefixSums (l : List ℕ) : List ℕ :=
  (List.range (l.length + 1)).map (fun i => (l.take i).sum)

/-- Modelled from the spec (§4.1 BucketRangeCache): on the data-parallel fast
path the per-bucket key counts are derived from uniform per-unit sample counts
and the per-feature pooling factors, sample-major. -/
def bucketCounts (poolingFactors : List ℕ) (batchSize : ℕ) : List ℕ :=
  ((List.range batchSize).map (fun _ => poolingFactors)).flatten

/-- Modelled from the spec (§4.1): the data-parallel bucket-range buffer for a
given batch size, computed by `compute_dp_bucket_range_operators_`. -/
def computeDPBucketRange (poolingFactors : List ℕ) (batchSize : ℕ) : List ℕ :=
  prefixSums (bucketCounts poolingFactors batchSize)

/-- The bucket-range invariant of spec §3: non-decreasing, starts at 0, and
the last entry is the total key count. -/
def validBucketRange (total : ℕ) (r : List ℕ) : Prop :=
  r.getD 0 0 = 0 ∧
  (∀ i, i + 1 < r.length → r.getD i 0 ≤ r.getD (i + 1) 0) ∧
  r.getLast? = some total

/-! ## Basic lemmas about prefix sums and bucket counts -/

theorem prefixSums_length (l : List ℕ) : (prefixSums l).length = l.length + 1 := by
  simp [prefixSums]

theorem prefixSums_getElem? (l : List ℕ) (i : ℕ) (h : i < l.length + 1) :
    (prefixSums l)[i]? = some (l.take i).sum := by
  simp [prefixSums, List.getElem?_map, List.getElem?_range h]

theorem prefixSums_head (l : List ℕ) : (prefixSums l).getD 0 0 = 0 := by
  have h0 : (0 : ℕ) < l.length + 1 := Nat.succ_pos _
  simp [List.getD_eq_getElem?_getD, prefixSums_getElem? l 0 h0]

theorem take_sum_mono (l : List ℕ) (i : ℕ) :
    (l.take i).sum ≤ (l.take (i + 1)).sum := by
  rw [List.take_succ, List.sum_append]
  exact Nat.le_add_right _ _

theorem prefixSums_mono (l : List ℕ) (i : ℕ) (h : i + 1 < (prefixSums l).length) :
    (prefixSums l).getD i 0 ≤ (prefixSums l).getD (i + 1) 0 := by
  rw [prefixSums_length] at h
  have hi : i < l.length + 1 := Nat.lt_of_succ_lt h
  rw [List.getD_eq_getElem?_getD, List.getD_eq_getElem?_getD,
    prefixSums_getElem? l i hi, prefixSums_getElem? l (i + 1) h]
  exact take_sum_mono l i

theorem prefixSums_getLast? (l : List ℕ) :
    (prefixSums l).getLast? = some l.sum := by
  rw [prefixSums, List.getLast?_map, List.range_succ, List.getLast?_concat]
  simp

theorem bucketCounts_sum (pf : List ℕ) (bs : ℕ) :
    (bucketCounts pf bs).sum = bs * pf.sum := by
  simp [bucketCounts, List.sum_flatten, List.map_map, Function.comp, Nat.mul_comm]

theorem bucketCounts_length (pf : List ℕ) (bs : ℕ) :
    (bucketCounts pf bs).length = bs * pf.length := by
  simp [bucketCounts, List.length_flatten, List.map_map, Function.comp, Nat.mul_comm]

theorem computeDPBucketRange_valid (pf : List ℕ) (bs : ℕ) :
    validBucketRange (bs * pf.sum) (computeDPBucketRange pf bs) := by
  refine ⟨prefixSums_head _, fun i h => prefixSums_mono _ i h, ?_⟩
  rw [computeDPBucketRange, prefixSums_getLast?, bucketCounts_sum]

/-! ## Distributor state: caching and validation -/

/-- The error taxonomy of spec §7 that `distribute` can surface. -/
inductive DistError where
  | configurationError
  | capacityError
deriving DecidableEq

/-- Modelled from the spec: the `GpuCommData` cache declared in
`data_distributor.hpp` (lines 54-60) — the last batch size together with the
bucket-range tensor cached for it; the computing source is absent. -/
structure GpuCommData where
  last_batch_size : ℤ
  bucket_range : List ℕ
deriving DecidableEq

/-- Modelled from the spec: the distributor state visible to the claims — the
static per-feature pooling factors, the maximum configured batch size, and the
per-unit `GpuCommData` cache. -/
structure DistState where
  poolingFactors : List ℤ
  maxBatchSize : ℤ
  comm : GpuCommData
deriving DecidableEq

/-- The per-call output bundle (`Result` element): the concatenated key
stream and the bucket range describing how it partitions into buckets. -/
structure DistResult where
  keys : List ℕ
  bucket_range : List ℕ
deriving DecidableEq

/-- Modelled from the spec (§4.1 BucketRangeCache): recompute the cached
bucket ranges only when the batch size differs from the previous call,
updating `last_batch_size` and the cached buffer in place. -/
def updateComm (pf : List ℤ) (comm : GpuCommData) (bs : ℤ) : GpuCommData :=
  if bs = comm.last_batch_size then comm
  else { last_batch_size := bs,
         bucket_range := computeDPBucketRange (pf.map Int.toNat) bs.toNat }

/-- Modelled from the spec (§4.7, §7): the data-parallel `distribute` entry —
reject a non-positive batch size or pooling factor as a `ConfigurationError`,
a batch size above the configured maximum as a `CapacityError`, then read the
cached (or recomputed) bucket ranges and fill the output. -/
def distribute (s : DistState) (keys : List ℕ) (bs : ℤ) :
    Except DistError (DistState × DistResult) :=
  if bs ≤ 0 ∨ ∃ p ∈ s.poolingFactors, p ≤ 0 then .error .configurationError
  else if s.maxBatchSize < bs then .error .capacityError
  else
    let comm := updateComm s.poolingFactors s.comm bs
    .ok ({ s with comm := comm },
         { keys := keys, bucket_range := comm.bucket_range })

/-- The cache-consistency invariant: either no batch has been distributed yet
(`last_batch_size` still at its non-positive initial value) or the cached
buffer is the one computed for `last_batch_size`. -/
def commInvariant (s : DistState) : Prop :=
  s.comm.last_batch_size ≤ 0 ∨
  s.comm.bucket_range =
    computeDPBucketRange (s.poolingFactors.map Int.toNat)
      s.comm.last_batch_size.toNat

/-- The freshly constructed distributor: nothing cached yet. -/
def initState (pf : List ℤ) (maxBs : ℤ) : DistState :=
  { poolingFactors := pf, maxBatchSize := maxBs,
    comm := { last_batch_size := -1, bucket_range := [] } }

theorem initState_invariant (pf : List ℤ) (maxBs : ℤ) :
    commInvariant (initState pf maxBs) := Or.inl (by norm_num [initState])

theorem updateComm_last (pf : List ℤ) (comm : GpuCommData) (bs : ℤ) :
    (updateComm pf comm bs).last_batch_size = bs := by
  unfold updateComm
  split
  · next h => exact h.symm
  · rfl

theorem updateComm_self (pf : List ℤ) (comm : GpuCommData) (bs : ℤ)
    (h : bs = comm.last_batch_size) : updateComm pf comm bs = comm := by
  simp [updateComm, h]

theorem distribute_ok_iff (s : DistState) (keys : List ℕ) (bs : ℤ)
    (hb : 0 < bs) (hpf : ∀ p ∈ s.poolingFactors, 0 < p)
    (hcap : bs ≤ s.maxBatchSize) :
    distribute s keys bs =
      .ok ({ s with comm := updateComm s.poolingFactors s.comm bs },
           { keys := keys,
             bucket_range := (updateComm s.poolingFactors s.comm bs).bucket_range }) := by
  rw [distribute, if_neg, if_neg]
  · exact not_lt.mpr hcap
  · push_neg
    exact ⟨hb, hpf⟩

theorem distribute_ok_elim (s : DistState) (keys : List ℕ) (bs : ℤ)
    (s' : DistState) (r : DistResult)
    (h : distribute s keys bs = .ok (s', r)) :
    s' = { s with comm := updateComm s.poolingFactors s.comm bs } ∧
    r = { keys := keys,
          bucket_range := (updateComm s.poolingFactors s.comm bs).bucket_range } := by
  rw [distribute] at h
  split at h
  · exact absurd h (by simp)
  · split at h
    · exact absurd h (by simp)
    · simp only [Except.ok.injEq, Prod.mk.injEq] at h
      exact ⟨h.1.symm, h.2.symm⟩

theorem distribute_preserves_invariant (s : DistState) (keys : List ℕ)
    (bs : ℤ) (s' : DistState) (r : DistResult)
    (hinv : commInvariant s) (h : distribute s keys bs = .ok (s', r)) :
    commInvariant s' := by
  obtain ⟨hs, -⟩ := distribute_ok_elim s keys bs s' r h
  subst hs
  unfold commInvariant updateComm at *
  split
  · exact hinv
  · exact Or.inr rfl

/-! ## C2: the bucket-range invariant, for computed and cached buffers -/

/-- C2: every bucket-range buffer the distributor produces
(`computeDPBucketRange`, for any pooling factors and batch size) is
non-decreasing, starts at 0 and ends at the total local key count; and the
same holds for the buffer cached in `GpuCommData` once a batch has been
distributed. -/
theorem bucket_range_always_valid (pf : List ℕ) (bs : ℕ) (s : DistState) :
    validBucketRange (bs * pf.sum) (computeDPBucketRange pf bs) ∧
    (commInvariant s → 0 < s.comm.last_batch_size →
      validBucketRange
        (s.comm.last_batch_size.toNat * (s.poolingFactors.map Int.toNat).sum)
        s.comm.bucket_range) := by
  refine ⟨computeDPBucketRange_valid pf bs, fun hinv hpos => ?_⟩
  rcases hinv with h | h
  · exact absurd hpos (not_lt.mpr h)
  · rw [h]
    exact computeDPBucketRange_valid _ _

/-! ## C1: the Phase 1 counts size the Phase 2 payload -/

/-- C1: for every unit and every input, the total of the per-unit receive
counts returned by the Phase 1 exchange (`all2all_keys_per_bucket`) equals the
number of keys the unit actually receives in the Phase 2 exchange
(`all2all_keys`). -/
theorem sum_recv_counts_eq_received_num_keys (numUnits : ℕ)
    (units : List (List ℕ)) (u : ℕ) :
    (all2all_keys_per_bucket numUnits units u).sum =
      (all2all_keys numUnits units u).length := by
  simp [all2all_keys_per_bucket, all2all_keys, List.length_flatten, List.map_map,
    Function.comp_def, sendCount]

/-! ## C3 and C4: idempotence and cache correctness of `distribute` -/

theorem distribute_ok_pos (s : DistState) (keys : List ℕ) (bs : ℤ)
    (x : DistState × DistResult) (h : distribute s keys bs = .ok x) :
    0 < bs := by
  rw [distribute] at h
  split at h
  · exact absurd h (by simp)
  · next hc =>
    push_neg at hc
    exact hc.1

/-- C3: calling `distribute` twice with identical inputs and the same batch
size produces identical `Result` buffers — the second call's output equals the
first's. -/
theorem distribute_idempotent (s s1 s2 : DistState) (keys : List ℕ) (bs : ℤ)
    (r1 r2 : DistResult)
    (h1 : distribute s keys bs = .ok (s1, r1))
    (h2 : distribute s1 keys bs = .ok (s2, r2)) : r2 = r1 := by
  obtain ⟨hs1, hr1⟩ := distribute_ok_elim _ _ _ _ _ h1
  obtain ⟨hs2, hr2⟩ := distribute_ok_elim _ _ _ _ _ h2
  have hpf : s1.poolingFactors = s.poolingFactors := by rw [hs1]
  have hcomm : s1.comm = updateComm s.poolingFactors s.comm bs := by rw [hs1]
  have hlast : bs = s1.comm.last_batch_size := by rw [hcomm, updateComm_last]
  rw [hr2, hr1, updateComm_self s1.poolingFactors s1.comm bs hlast, hcomm]

/-- C4: for two consecutive `distribute` calls with the same batch size, the
second call skips recomputation (the cache is reused unchanged), and the
cached bucket-range buffer is identical to one freshly recomputed from
scratch for that batch size. -/
theorem cached_bucket_range_eq_fresh (s s1 s2 : DistState)
    (keys1 keys2 : List ℕ) (bs : ℤ) (r1 r2 : DistResult)
    (hinv : commInvariant s)
    (h1 : distribute s keys1 bs = .ok (s1, r1))
    (h2 : distribute s1 keys2 bs = .ok (s2, r2)) :
    s2.comm = s1.comm ∧
    s1.comm.bucket_range =
      computeDPBucketRange (s1.poolingFactors.map Int.toNat) bs.toNat := by
  have hpos : 0 < bs := distribute_ok_pos _ _ _ _ h1
  obtain ⟨hs1, -⟩ := distribute_ok_elim _ _ _ _ _ h1
  obtain ⟨hs2, -⟩ := distribute_ok_elim _ _ _ _ _ h2
  have hpf : s1.poolingFactors = s.poolingFactors := by rw [hs1]
  have hcomm : s1.comm = updateComm s.poolingFactors s.comm bs := by rw [hs1]
  have hlast : bs = s1.comm.last_batch_size := by rw [hcomm, updateComm_last]
  constructor
  · rw [hs2]
    exact updateComm_self _ _ _ hlast
  · rw [hpf, hcomm]
    unfold updateComm
    split
    · next heq =>
      rcases hinv with h | h
      · rw [heq] at hpos
        exact absurd hpos (not_lt.mpr h)
      · rw [h, ← heq]
    · rfl

/-! ## C7: validation and boundary behaviour of `distribute` -/

theorem computeDPBucketRange_length (pf : List ℕ) (bs : ℕ) :
    (computeDPBucketRange pf bs).length = bs * pf.length + 1 := by
  rw [computeDPBucketRange, prefixSums_length, bucketCounts_length]

/-- C7: `distribute` fails with a `ConfigurationError` exactly when the batch
size or a pooling factor is non-positive; batch size 0 is rejected, while any
positive batch size within capacity succeeds and its output bucket range fits
in a buffer sized for the maximum configured batch. -/
theorem distribute_validation (s : DistState) (keys : List ℕ) (bs : ℤ)
    (hinv : commInvariant s) (hcap : bs ≤ s.maxBatchSize) :
    (distribute s keys bs = .error .configurationError ↔
      bs ≤ 0 ∨ ∃ p ∈ s.poolingFactors, p ≤ 0) ∧
    distribute s keys 0 = .error .configurationError ∧
    ((0 < bs ∧ ∀ p ∈ s.poolingFactors, 0 < p) →
      ∃ s' r, distribute s keys bs = .ok (s', r) ∧
        r.bucket_range.length ≤
          s.maxBatchSize.toNat * s.poolingFactors.length + 1) := by
  refine ⟨?_, ?_, ?_⟩
  · constructor
    · intro h
      by_contra hc
      rw [distribute, if_neg hc] at h
      split at h <;> simp at h
    · intro hc
      rw [distribute, if_pos hc]
  · rw [distribute, if_pos (Or.inl le_rfl)]
  · rintro ⟨hb, hpf⟩
    refine ⟨_, _, distribute_ok_iff s keys bs hb hpf hcap, ?_⟩
    show (updateComm s.poolingFactors s.comm bs).bucket_range.length ≤ _
    have hlen : ∀ n : ℕ, n ≤ s.maxBatchSize.toNat →
        (computeDPBucketRange (s.poolingFactors.map Int.toNat) n).length ≤
          s.maxBatchSize.toNat * s.poolingFactors.length + 1 := by
      intro n hn
      rw [computeDPBucketRange_length, List.length_map]
      exact Nat.add_le_add_right
        (Nat.mul_le_mul_right s.poolingFactors.length hn) 1
    unfold updateComm
    split
    · next heq =>
      rcases hinv with h | h
      · rw [heq] at hb
        exact absurd hb (not_lt.mpr h)
      · rw [h, ← heq]
        exact hlen _ (Int.toNat_le_toNat hcap)
    · exact hlen _ (Int.toNat_le_toNat hcap)

/-! ## C9: `init_fixed_bucket_ranges` leaves the distributor unchanged -/

/-- Modelled from the spec: `init_fixed_bucket_ranges` is declared `const` in
`data_distributor.hpp` (line 51) and fills the caller-supplied output tensor
with the fixed full-batch bucket ranges; its implementing source is absent.
State-passing form: the call maps the distributor state and the output buffer
to the resulting state and the overwritten output buffer. -/
def init_fixed_bucket_ranges (s : DistState) (out : List ℕ) :
    DistState × List ℕ :=
  (s, computeDPBucketRange (s.poolingFactors.map Int.toNat)
        s.maxBatchSize.toNat)

/-- C9: `init_fixed_bucket_ranges` fills the caller-supplied output buffer
with the full-batch bucket ranges and leaves every field of the distributor —
the cached `GpuCommData` included — unchanged. -/
theorem init_fixed_bucket_ranges_const (s : DistState) (out : List ℕ) :
    ((init_fixed_bucket_ranges s out).1.poolingFactors = s.poolingFactors ∧
     (init_fixed_bucket_ranges s out).1.maxBatchSize = s.maxBatchSize ∧
     (init_fixed_bucket_ranges s out).1.comm = s.comm) ∧
    (init_fixed_bucket_ranges s out).2 =
      computeDPBucketRange (s.poolingFactors.map Int.toNat)
        s.maxBatchSize.toNat :=
  ⟨⟨rfl, rfl, rfl⟩, rfl⟩

/-! ## C6: labeling, exchange and conversion round-trip to the same shard -/

/-- Modelled from the spec (§4.5 IndicesConverter): each received raw key maps
to its local table index within the owning unit's shard; under the modulo
shard assignment the local index is the quotient by the shard count. -/
def convertKey (numUnits : ℕ) (k : ℕ) : ℕ := k / numUnits

/-- The key denoted by a (unit, local index) pair of the static shard
assignment — the inverse reading of labeling followed by conversion. -/
def shardKey (numUnits : ℕ) (u : ℕ) (localIdx : ℕ) : ℕ :=
  numUnits * localIdx + u

/-- C6: every key that arrives at unit `u` in the Phase 2 exchange was labeled
with destination `u`; converting it with the indices converter and reading the
result back through the static shard assignment yields the very same key and
hence the same table shard the labeling operator originally selected. -/
theorem exchange_convert_roundtrip (numUnits u : ℕ) (units : List (List ℕ))
    (k : ℕ) (hk : k ∈ all2all_keys numUnits units u) :
    shardOf numUnits k = u ∧
    shardKey numUnits u (convertKey numUnits k) = k ∧
    shardOf numUnits (shardKey numUnits u (convertKey numUnits k)) = u := by
  have hlabel : shardOf numUnits k = u := by
    rw [all2all_keys, List.mem_flatten] at hk
    obtain ⟨l, hl, hkl⟩ := hk
    rw [List.mem_map] at hl
    obtain ⟨ks, -, rfl⟩ := hl
    simpa using List.of_mem_filter hkl
  have hround : shardKey numUnits u (convertKey numUnits k) = k := by
    rw [shardKey, convertKey, ← hlabel, shardOf]
    exact Nat.div_add_mod k numUnits
  exact ⟨hlabel, hround, by rw [hround, hlabel]⟩

/-! ## C5: the swizzle scatter pass is a stable partition by destination -/

/-- Keys of a labeled stream destined to unit `d`, in original order. -/
def keysTo (d : ℕ) (lks : List (ℕ × ℕ)) : List ℕ :=
  (lks.filter (fun kl => kl.2 == d)).map Prod.fst

/-- Modelled from the spec (§4.3 CountKeysOperator): the per-destination key
total. -/
def countTo (d : ℕ) (lks : List (ℕ × ℕ)) : ℕ := (keysTo d lks).length

/-- Modelled from the spec (§4.3 CountKeysOperator): the exclusive prefix sums
of the per-destination totals — the write offsets consumed by the swizzle. -/
def exclOffset (lks : List (ℕ × ℕ)) (d : ℕ) : ℕ :=
  ((List.range d).map (fun e => countTo e lks)).sum

/-- The offset update of the scatter pass: the write offset of destination
`l` is bumped by one, all others stay. -/
def bump (pos : ℕ → ℕ) (l : ℕ) : ℕ → ℕ :=
  fun d => if d = l then pos l + 1 else pos d

/-- Modelled from the spec (§4.3 SwizzleKeysOperator): the single O(n) scatter
pass — each key is written at its destination's next write offset and that
offset is bumped; the implementing source is absent. -/
def scatterLoop : List (ℕ × ℕ) → List ℕ → (ℕ → ℕ) → List ℕ
  | [], out, _ => out
  | (k, l) :: rest, out, pos =>
      scatterLoop rest (out.set (pos l) k) (bump pos l)

/-- The swizzle operator: scatter the labeled keys into a buffer of the same
size using the precomputed exclusive offsets. -/
def swizzleKeys (lks : List (ℕ × ℕ)) : List ℕ :=
  scatterLoop lks (List.replicate lks.length 0) (exclOffset lks)

/-- The specification-side description of the reorder: a stable partition of
the keys by destination unit id. -/
def stablePartitionByDest (numUnits : ℕ) (lks : List (ℕ × ℕ)) : List ℕ :=
  ((List.range numUnits).map (fun d => keysTo d lks)).flatten

theorem bump_self (pos : ℕ → ℕ) (l : ℕ) : bump pos l l = pos l + 1 := by
  simp [bump]

theorem bump_ne (pos : ℕ → ℕ) (l d : ℕ) (h : d ≠ l) :
    bump pos l d = pos d := by
  simp [bump, h]

theorem keysTo_cons (d k l : ℕ) (rest : List (ℕ × ℕ)) :
    keysTo d ((k, l) :: rest) =
      if l = d then k :: keysTo d rest else keysTo d rest := by
  by_cases h : l = d <;> simp [keysTo, List.filter_cons, h]

theorem countTo_cons (d k l : ℕ) (rest : List (ℕ × ℕ)) :
    countTo d ((k, l) :: rest) =
      if l = d then countTo d rest + 1 else countTo d rest := by
  by_cases h : l = d <;> simp [countTo, keysTo_cons, h]

theorem scatterLoop_length (rest : List (ℕ × ℕ)) (out : List ℕ)
    (pos : ℕ → ℕ) : (scatterLoop rest out pos).length = out.length := by
  induction rest generalizing out pos with
  | nil => rfl
  | cons kl rest ih =>
    obtain ⟨k, l⟩ := kl
    rw [scatterLoop, ih, List.length_set]

/-- Pointwise behaviour of the scatter pass: positions outside every pending
write region keep their old contents, and the region of destination `d` ends
up holding exactly the keys destined to `d`, in order. -/
theorem scatterLoop_spec (rest : List (ℕ × ℕ)) (out : List ℕ) (pos : ℕ → ℕ)
    (hb : ∀ kl ∈ rest, pos kl.2 + countTo kl.2 rest ≤ out.length)
    (hdisj : ∀ kl ∈ rest, ∀ kl2 ∈ rest, kl.2 ≠ kl2.2 →
      pos kl.2 + countTo kl.2 rest ≤ pos kl2.2 ∨
      pos kl2.2 + countTo kl2.2 rest ≤ pos kl.2) :
    (∀ p, (∀ kl ∈ rest, p < pos kl.2 ∨ pos kl.2 + countTo kl.2 rest ≤ p) →
        (scatterLoop rest out pos)[p]? = out[p]?) ∧
    (∀ d j, j < countTo d rest →
        (scatterLoop rest out pos)[pos d + j]? = (keysTo d rest)[j]?) := by
  induction rest generalizing out pos with
  | nil =>
    refine ⟨fun p _ => rfl, fun d j hj => absurd hj ?_⟩
    simp [countTo, keysTo]
  | cons kl rest ih =>
    obtain ⟨k, l⟩ := kl
    have hmem0 : ((k, l) : ℕ × ℕ) ∈ (k, l) :: rest := List.mem_cons_self _ _
    have hcl : countTo l ((k, l) :: rest) = countTo l rest + 1 := by
      rw [countTo_cons, if_pos rfl]
    have hcne : ∀ d, d ≠ l → countTo d ((k, l) :: rest) = countTo d rest := by
      intro d hd
      rw [countTo_cons, if_neg (fun h => hd h.symm)]
    have hhead : pos l + countTo l ((k, l) :: rest) ≤ out.length :=
      hb (k, l) hmem0
    rw [hcl] at hhead
    have hwrite : pos l < out.length := by omega
    -- properties of the state after writing the head key
    have hb' : ∀ kl ∈ rest,
        bump pos l kl.2 + countTo kl.2 rest ≤ (out.set (pos l) k).length := by
      intro kl2 h2
      rw [List.length_set]
      by_cases hd : kl2.2 = l
      · rw [hd, bump_self]
        omega
      · rw [bump_ne pos l kl2.2 hd]
        have h3 : pos kl2.2 + countTo kl2.2 ((k, l) :: rest) ≤ out.length :=
          hb kl2 (List.mem_cons_of_mem _ h2)
        rw [hcne kl2.2 hd] at h3
        exact h3
    have hdisj' : ∀ kl ∈ rest, ∀ kl2 ∈ rest, kl.2 ≠ kl2.2 →
        bump pos l kl.2 + countTo kl.2 rest ≤ bump pos l kl2.2 ∨
        bump pos l kl2.2 + countTo kl2.2 rest ≤ bump pos l kl.2 := by
      intro kl1 h1 kl2 h2 hne
      have hold := hdisj kl1 (List.mem_cons_of_mem _ h1) kl2
        (List.mem_cons_of_mem _ h2) hne
      by_cases hd1 : kl1.2 = l
      · have hd2 : kl2.2 ≠ l := fun h => hne (hd1.trans h.symm)
        rw [hd1, hcl, hcne kl2.2 hd2] at hold
        rw [hd1, bump_self, bump_ne pos l kl2.2 hd2]
        omega
      · by_cases hd2 : kl2.2 = l
        · rw [hd2, hcl, hcne kl1.2 hd1] at hold
          rw [hd2, bump_self, bump_ne pos l kl1.2 hd1]
          omega
        · rw [hcne kl1.2 hd1, hcne kl2.2 hd2] at hold
          rw [bump_ne pos l kl1.2 hd1, bump_ne pos l kl2.2 hd2]
          exact hold
    obtain ⟨ihA, ihB⟩ := ih (out.set (pos l) k) (bump pos l) hb' hdisj'
    constructor
    · intro p hp
      rw [scatterLoop]
      have hphead : p < pos l ∨ pos l + countTo l ((k, l) :: rest) ≤ p :=
        hp (k, l) hmem0
      rw [hcl] at hphead
      have hA := ihA p ?_
      · rw [hA]
        exact List.getElem?_set_ne (by omega)
      · intro kl2 h2
        by_cases hd : kl2.2 = l
        · rw [hd, bump_self]
          omega
        · rw [bump_ne pos l kl2.2 hd]
          have h3 : p < pos kl2.2 ∨
              pos kl2.2 + countTo kl2.2 ((k, l) :: rest) ≤ p :=
            hp kl2 (List.mem_cons_of_mem _ h2)
          rw [hcne kl2.2 hd] at h3
          exact h3
    · intro d j hj
      rw [scatterLoop]
      by_cases hd : d = l
      · subst hd
        rw [hcl] at hj
        cases j with
        | zero =>
          have hA := ihA (pos d) ?_
          · rw [Nat.add_zero, hA, keysTo_cons, if_pos rfl,
              List.getElem?_cons_zero]
            exact List.getElem?_set_self hwrite
          · intro kl2 h2
            by_cases hd2 : kl2.2 = d
            · rw [hd2, bump_self]
              omega
            · rw [bump_ne pos d kl2.2 hd2]
              have h3 : pos d + countTo d ((k, d) :: rest) ≤ pos kl2.2 ∨
                  pos kl2.2 + countTo kl2.2 ((k, d) :: rest) ≤ pos d :=
                hdisj (k, d) hmem0 kl2 (List.mem_cons_of_mem _ h2)
                  (fun h => hd2 h.symm)
              rw [hcl, hcne kl2.2 hd2] at h3
              omega
        | succ j' =>
          have hB := ihB d j' (by omega)
          rw [bump_self] at hB
          have hidx : pos d + (j' + 1) = pos d + 1 + j' := by omega
          rw [hidx, hB, keysTo_cons, if_pos rfl, List.getElem?_cons_succ]
      · rw [hcne d hd] at hj
        have hB := ihB d j hj
        rw [bump_ne pos l d hd] at hB
        rw [hB, keysTo_cons, if_neg (fun h => hd h.symm)]

theorem list_sum_map_add {α : Type} (l : List α) (f g : α → ℕ) :
    (l.map (fun x => f x + g x)).sum = (l.map f).sum + (l.map g).sum := by
  induction l with
  | nil => rfl
  | cons a l ih =>
    simp only [List.map_cons, List.sum_cons, ih]
    omega

theorem sum_indicator_range (n l : ℕ) (hl : l < n) :
    ((List.range n).map (fun e => if l = e then 1 else 0)).sum = 1 := by
  induction n with
  | zero => omega
  | succ m ih =>
    rw [List.range_succ, List.map_append, List.sum_append]
    by_cases h : l = m
    · subst h
      have hz : ((List.range l).map
          (fun e => if l = e then 1 else 0)).sum = 0 := by
        apply List.sum_eq_zero
        intro x hx
        rw [List.mem_map] at hx
        obtain ⟨e, he, rfl⟩ := hx
        rw [List.mem_range] at he
        rw [if_neg (by omega)]
      simp [hz]
    · have hl' : l < m := by omega
      rw [ih hl']
      simp [h]

theorem sum_countTo (numUnits : ℕ) (lks : List (ℕ × ℕ))
    (h : ∀ kl ∈ lks, kl.2 < numUnits) :
    ((List.range numUnits).map (fun e => countTo e lks)).sum = lks.length := by
  induction lks with
  | nil => simp [countTo, keysTo]
  | cons kl rest ih =>
    obtain ⟨k, l⟩ := kl
    have hl : l < numUnits := h (k, l) (List.mem_cons_self _ _)
    have hrest := ih fun kl2 h2 => h kl2 (List.mem_cons_of_mem _ h2)
    have hmap : (List.range numUnits).map
        (fun e => countTo e ((k, l) :: rest)) =
        (List.range numUnits).map
          (fun e => countTo e rest + if l = e then 1 else 0) := by
      apply List.map_congr_left
      intro e _
      rw [countTo_cons]
      by_cases hle : l = e <;> simp [hle]
    rw [hmap, list_sum_map_add, hrest, sum_indicator_range numUnits l hl,
      List.length_cons]

theorem exclOffset_add_countTo (lks : List (ℕ × ℕ)) (d : ℕ) :
    exclOffset lks d + countTo d lks =
      ((List.range (d + 1)).map (fun e => countTo e lks)).sum := by
  rw [List.range_succ, List.map_append, List.sum_append, exclOffset]
  simp

theorem sum_map_range_mono (f : ℕ → ℕ) (m n : ℕ) (h : m ≤ n) :
    ((List.range m).map f).sum ≤ ((List.range n).map f).sum := by
  obtain ⟨c, rfl⟩ := Nat.exists_eq_add_of_le h
  rw [List.range_add, List.map_append, List.sum_append]
  exact Nat.le_add_right _ _

theorem exclOffset_mono (lks : List (ℕ × ℕ)) (d e : ℕ) (h : d < e) :
    exclOffset lks d + countTo d lks ≤ exclOffset lks e := by
  rw [exclOffset_add_countTo]
  exact sum_map_range_mono _ _ _ h

theorem range_sum_decompose (f : ℕ → ℕ) (n p : ℕ)
    (hp : p < ((List.range n).map f).sum) :
    ∃ d j, d < n ∧ j < f d ∧ p = ((List.range d).map f).sum + j := by
  induction n with
  | zero => simp at hp
  | succ m ih =>
    rw [List.range_succ, List.map_append, List.sum_append] at hp
    rcases Nat.lt_or_ge p ((List.range m).map f).sum with hlt | hge
    · obtain ⟨d, j, h1, h2, h3⟩ := ih hlt
      exact ⟨d, j, Nat.lt_succ_of_lt h1, h2, h3⟩
    · refine ⟨m, p - ((List.range m).map f).sum, Nat.lt_succ_self m, ?_, ?_⟩
      · simp only [List.map_cons, List.sum_cons, List.map_nil,
          List.sum_nil] at hp
        omega
      · omega

theorem flatten_getElem_segment (L : List (List ℕ)) (d j : ℕ) (seg : List ℕ)
    (hd : L[d]? = some seg) (hj : j < seg.length) :
    L.flatten[((L.take d).map List.length).sum + j]? = seg[j]? := by
  induction L generalizing d with
  | nil => simp at hd
  | cons a L ih =>
    cases d with
    | zero =>
      rw [List.getElem?_cons_zero, Option.some.injEq] at hd
      subst hd
      simp only [List.take_zero, List.map_nil, List.sum_nil, Nat.zero_add,
        List.flatten_cons]
      exact List.getElem?_append_left hj
    | succ d' =>
      rw [List.getElem?_cons_succ] at hd
      rw [List.flatten_cons, List.take_succ_cons, List.map_cons,
        List.sum_cons, Nat.add_assoc,
        List.getElem?_append_right (Nat.le_add_right _ _),
        Nat.add_sub_cancel_left]
      exact ih d' hd

/-- C5: the swizzle operator's output equals a stable partition of the keys
by destination unit id — keys sharing a destination appear in the output in
their original relative order (duplicate key values included, since the
argument never inspects key values). -/
theorem swizzle_eq_stable_partition (numUnits : ℕ) (lks : List (ℕ × ℕ))
    (h : ∀ kl ∈ lks, kl.2 < numUnits) :
    swizzleKeys lks = stablePartitionByDest numUnits lks := by
  have hsum : ((List.range numUnits).map (fun e => countTo e lks)).sum =
      lks.length := sum_countTo numUnits lks h
  have hb : ∀ kl ∈ lks, exclOffset lks kl.2 + countTo kl.2 lks ≤
      (List.replicate lks.length (0 : ℕ)).length := by
    intro kl hkl
    rw [List.length_replicate, exclOffset_add_countTo, ← hsum]
    exact sum_map_range_mono _ _ _ (h kl hkl)
  have hdisj : ∀ kl ∈ lks, ∀ kl2 ∈ lks, kl.2 ≠ kl2.2 →
      exclOffset lks kl.2 + countTo kl.2 lks ≤ exclOffset lks kl2.2 ∨
      exclOffset lks kl2.2 + countTo kl2.2 lks ≤ exclOffset lks kl.2 := by
    intro kl _ kl2 _ hne
    rcases Nat.lt_or_gt_of_ne hne with hlt | hgt
    · exact Or.inl (exclOffset_mono lks _ _ hlt)
    · exact Or.inr (exclOffset_mono lks _ _ hgt)
  obtain ⟨-, hseg⟩ := scatterLoop_spec lks
    (List.replicate lks.length 0) (exclOffset lks) hb hdisj
  have hlen1 : (swizzleKeys lks).length = lks.length := by
    rw [swizzleKeys, scatterLoop_length, List.length_replicate]
  have hlen2 : (stablePartitionByDest numUnits lks).length = lks.length := by
    rw [stablePartitionByDest, List.length_flatten, List.map_map]
    rw [show List.length ∘ (fun d => keysTo d lks) =
      fun e => countTo e lks from rfl]
    exact hsum
  apply List.ext_getElem?
  intro p
  by_cases hp : p < lks.length
  · obtain ⟨d, j, hd, hj, rfl⟩ :=
      range_sum_decompose (fun e => countTo e lks) numUnits p
        (by rw [hsum]; exact hp)
    have hL : (swizzleKeys lks)[exclOffset lks d + j]? =
        (keysTo d lks)[j]? := hseg d j hj
    have hR : (stablePartitionByDest numUnits lks)[exclOffset lks d + j]? =
        (keysTo d lks)[j]? := by
      rw [stablePartitionByDest]
      have hdL : ((List.range numUnits).map
          (fun e => keysTo e lks))[d]? = some (keysTo d lks) := by
        rw [List.getElem?_map, List.getElem?_range hd]
        rfl
      have hoff : ((((List.range numUnits).map
          (fun e => keysTo e lks)).take d).map List.length).sum =
          exclOffset lks d := by
        rw [← List.map_take, List.take_range, Nat.min_eq_left hd.le,
          List.map_map, exclOffset]
        rfl
      have := flatten_getElem_segment
        ((List.range numUnits).map (fun e => keysTo e lks)) d j
        (keysTo d lks) hdL hj
      rwa [hoff] at this
    exact hL.trans hR.symm
  · rw [List.getElem?_eq_none (by omega : (swizzleKeys lks).length ≤ p),
      List.getElem?_eq_none (by omega : (stablePartitionByDest numUnits lks).length ≤ p)]

/-- The labels produced by the labeling operator feed the swizzle: partition
segments over labeled keys coincide with the exchange payloads. -/
theorem keysTo_labelKeys (numUnits d : ℕ) (ks : List ℕ) :
    keysTo d (labelKeys numUnits ks) = sendPayload numUnits ks d := by
  rw [keysTo, labelKeys, List.filter_map, List.map_map]
  simp [sendPayload, Function.comp_def]

/-! ## C8: the concrete 2-unit scenario -/

/-- Modelled from the spec (§4.4 Phase 1): the per-bucket counts received by
unit `u` — for every source bucket (all units' buckets, source order), the
number of its keys destined to `u`. -/
def all2all_counts_per_bucket (numUnits : ℕ)
    (ubuckets : List (List (List ℕ))) (u : ℕ) : List ℕ :=
  ubuckets.flatten.map (fun b => sendCount numUnits b u)

/-- C8 counterexample: in the spec's scenario (2 units, keys `[[5,7],[5,9]]`
on unit 0 and `[[3,5],[7,7]]` on unit 1, assignment `key % 2 == unit_id`)
every key is odd, so unit 0 does not receive the claimed keys `{5,5}` — it
receives nothing. -/
theorem scenario_unit0_receives_nothing :
    ¬ (all2all_keys 2 [[5, 7, 5, 9], [3, 5, 7, 7]] 0).Perm [5, 5] := by
  decide

/-- C8 amended: under `key % 2 == unit_id` every key of the scenario is odd,
so unit 0 receives no keys and unit 1 receives all eight keys in source
order; the Phase 1 per-bucket counts are `[0,0,0,0]` at unit 0 and
`[2,2,2,2]` at unit 1, whose prefix-sum bucket range `[0,2,4,6,8]` slices the
received stream back into the original 4 sample buckets. -/
theorem scenario_odd_assignment :
    all2all_keys 2 [[5, 7, 5, 9], [3, 5, 7, 7]] 0 = [] ∧
    all2all_keys 2 [[5, 7, 5, 9], [3, 5, 7, 7]] 1 = [5, 7, 5, 9, 3, 5, 7, 7] ∧
    all2all_counts_per_bucket 2 [[[5, 7], [5, 9]], [[3, 5], [7, 7]]] 0 =
      [0, 0, 0, 0] ∧
    all2all_counts_per_bucket 2 [[[5, 7], [5, 9]], [[3, 5], [7, 7]]] 1 =
      [2, 2, 2, 2] ∧
    prefixSums
        (all2all_counts_per_bucket 2 [[[5, 7], [5, 9]], [[3, 5], [7, 7]]] 1) =
      [0, 2, 4, 6, 8] ∧
    ((all2all_keys 2 [[5, 7, 5, 9], [3, 5, 7, 7]] 1).drop 0).take 2 = [5, 7] ∧
    ((all2all_keys 2 [[5, 7, 5, 9], [3, 5, 7, 7]] 1).drop 2).take 2 = [5, 9] ∧
    ((all2all_keys 2 [[5, 7, 5, 9], [3, 5, 7, 7]] 1).drop 4).take 2 = [3, 5] ∧
    ((all2all_keys 2 [[5, 7, 5, 9], [3, 5, 7, 7]] 1).drop 6).take 2 = [7, 7] := by
  decide

/-! ## C10: GatherLayer fprop/bprop -/

/-- Modelled from the spec: the repository holds only the `GatherLayer`
declaration (`gather_layer.hpp`); per its documentation, `fprop` gathers the
input rows selected by the index list into the output tensor.  A tensor is
modelled as a list of rows. -/
def gather_fprop (input : List (List ℤ)) (indices : List ℕ) :
    List (List ℤ) :=
  indices.map (fun i => input.getD i [])

/-- Modelled from the spec: per the header documentation, `bprop` scatters
the output-gradient rows back to the input-gradient tensor at the gather
indices; all other rows of the zero-initialized gradient buffer stay zero. -/
def gather_bprop (outGrad : List (List ℤ)) (indices : List ℕ)
    (numRows rowLen : ℕ) : List (List ℤ) :=
  (indices.zip outGrad).foldl (fun acc ig => acc.set ig.1 ig.2)
    (List.replicate numRows (List.replicate rowLen (0 : ℤ)))

theorem scatter_foldl_untouched (ps : List (ℕ × List ℤ))
    (acc : List (List ℤ)) (r : ℕ) (hr : ∀ p ∈ ps, p.1 ≠ r) :
    (ps.foldl (fun a ig => a.set ig.1 ig.2) acc)[r]? = acc[r]? := by
  induction ps generalizing acc with
  | nil => rfl
  | cons p ps ih =>
    rw [List.foldl_cons,
      ih _ (fun q hq => hr q (List.mem_cons_of_mem _ hq))]
    exact List.getElem?_set_ne (hr p (List.mem_cons_self _ _))

theorem scatter_foldl_written (ps : List (ℕ × List ℤ))
    (acc : List (List ℤ)) (hnd : (ps.map Prod.fst).Nodup) :
    ∀ p ∈ ps, p.1 < acc.length →
      (ps.foldl (fun a ig => a.set ig.1 ig.2) acc)[p.1]? = some p.2 := by
  induction ps generalizing acc with
  | nil =>
    intro p hp
    exact absurd hp (List.not_mem_nil p)
  | cons q ps ih =>
    rw [List.map_cons, List.nodup_cons] at hnd
    intro p hp hlen
    rw [List.foldl_cons]
    rcases List.mem_cons.mp hp with rfl | hmem
    · rw [scatter_foldl_untouched ps _ p.1
        (fun pr hpr he => hnd.1 (he ▸ List.mem_map_of_mem Prod.fst hpr))]
      exact List.getElem?_set_self hlen
    · exact ih _ hnd.2 p hmem (by rw [List.length_set]; exact hlen)

/-- C10: `fprop` writes output row `j` equal to input row `indices[j]`, and
`bprop` scatters gradient row `j` back to input-gradient row `indices[j]`,
leaving every input-gradient row whose index is not in the index list zero —
the adjoint scatter of the gather. -/
theorem gather_fprop_bprop_adjoint (input : List (List ℤ))
    (outGrad : List (List ℤ)) (indices : List ℕ) (numRows rowLen : ℕ)
    (hnd : indices.Nodup) (hlt : ∀ i ∈ indices, i < numRows)
    (hlen : outGrad.length = indices.length) :
    (∀ j, j < indices.length →
      (gather_fprop input indices)[j]? =
        some (input.getD (indices.getD j 0) [])) ∧
    (∀ r, r < numRows → r ∉ indices →
      (gather_bprop outGrad indices numRows rowLen)[r]? =
        some (List.replicate rowLen (0 : ℤ))) ∧
    (∀ j, j < indices.length →
      (gather_bprop outGrad indices numRows rowLen)[indices.getD j 0]? =
        outGrad[j]?) := by
  have hfst : (indices.zip outGrad).map Prod.fst = indices :=
    List.map_fst_zip indices outGrad (le_of_eq hlen.symm)
  refine ⟨?_, ?_, ?_⟩
  · intro j hj
    rw [gather_fprop, List.getElem?_map, List.getElem?_eq_getElem hj,
      List.getD_eq_getElem indices 0 hj]
    rfl
  · intro r hr hnotin
    rw [gather_bprop, scatter_foldl_untouched _ _ r ?_]
    · rw [List.getElem?_replicate, if_pos hr]
    · intro p hp he
      have hmem : p.1 ∈ indices := by
        rw [← hfst]
        exact List.mem_map_of_mem Prod.fst hp
      rw [he] at hmem
      exact hnotin hmem
  · intro j hj
    have hjz : j < (indices.zip outGrad).length := by
      rw [List.length_zip, hlen, Nat.min_self]
      exact hj
    have hjg : j < outGrad.length := by rw [hlen]; exact hj
    have hmem : ((indices[j], outGrad[j]) : ℕ × List ℤ) ∈
        indices.zip outGrad := by
      rw [← List.getElem_zip (h := hjz)]
      exact List.getElem_mem hjz
    have hnd2 : ((indices.zip outGrad).map Prod.fst).Nodup := by
      rw [hfst]
      exact hnd
    have hlt2 : (indices[j] : ℕ) <
        (List.replicate numRows (List.replicate rowLen (0 : ℤ))).length := by
      rw [List.length_replicate]
      exact hlt _ (List.getElem_mem hj)
    have hw := scatter_foldl_written (indices.zip outGrad) _ hnd2
      (indices[j], outGrad[j]) hmem hlt2
    rw [gather_bprop, List.getD_eq_getElem indices 0 hj,
      List.getElem?_eq_getElem hjg]
    exact hw

/-! ## Witnesses -/

/-- Witness for C2 at pooling factors `[2]` and batch size 2, with the cache
state holding the buffer computed for batch size 2. -/
theorem bucket_range_always_valid_witness :
    validBucketRange 4 (computeDPBucketRange [2] 2) ∧
    validBucketRange 4 [0, 2, 4] :=
  ⟨(bucket_range_always_valid [2] 2 ⟨[2], 4, ⟨2, [0, 2, 4]⟩⟩).1,
   (bucket_range_always_valid [2] 2 ⟨[2], 4, ⟨2, [0, 2, 4]⟩⟩).2
     (Or.inr (by decide)) (by decide)⟩

/-- Witness for C3: two identical calls at batch size 2 from the fresh state
with pooling factors `[2]` and capacity 4 produce the same result. -/
theorem distribute_idempotent_witness :
    ({ keys := [7], bucket_range := [0, 2, 4] } : DistResult) =
      { keys := [7], bucket_range := [0, 2, 4] } :=
  distribute_idempotent (initState [2] 4) ⟨[2], 4, ⟨2, [0, 2, 4]⟩⟩
    ⟨[2], 4, ⟨2, [0, 2, 4]⟩⟩ [7] 2 ⟨[7], [0, 2, 4]⟩ ⟨[7], [0, 2, 4]⟩
    rfl rfl

/-- Witness for C4: after a first call at batch size 2, the second call at
the same batch size keeps the cache, which equals the fresh computation. -/
theorem cached_bucket_range_eq_fresh_witness :
    (⟨2, [0, 2, 4]⟩ : GpuCommData) = ⟨2, [0, 2, 4]⟩ ∧
    ([0, 2, 4] : List ℕ) =
      computeDPBucketRange (([2] : List ℤ).map Int.toNat) (2 : ℤ).toNat :=
  cached_bucket_range_eq_fresh (initState [2] 4) ⟨[2], 4, ⟨2, [0, 2, 4]⟩⟩
    ⟨[2], 4, ⟨2, [0, 2, 4]⟩⟩ [7] [9] 2 ⟨[7], [0, 2, 4]⟩ ⟨[9], [0, 2, 4]⟩
    (Or.inl (by decide)) rfl rfl

/-- Witness for C5 at two units and a stream with a duplicated key value. -/
theorem swizzle_eq_stable_partition_witness :
    swizzleKeys [(10, 1), (11, 0), (10, 0)] =
      stablePartitionByDest 2 [(10, 1), (11, 0), (10, 0)] :=
  swizzle_eq_stable_partition 2 [(10, 1), (11, 0), (10, 0)] (by decide)

/-- Witness for C6 at key 5 received by unit 1 of 2. -/
theorem exchange_convert_roundtrip_witness :
    shardOf 2 5 = 1 ∧
    shardKey 2 1 (convertKey 2 5) = 5 ∧
    shardOf 2 (shardKey 2 1 (convertKey 2 5)) = 1 :=
  exchange_convert_roundtrip 2 1 [[5]] 5 (by decide)

/-- Witness for C7: batch size 0 is rejected while batch sizes 1 and the
configured maximum 4 succeed within the maximum-sized buffer. -/
theorem distribute_validation_witness :
    distribute (initState [2] 4) [5] 0 = .error .configurationError ∧
    (∃ s' r, distribute (initState [2] 4) [5] 1 = .ok (s', r) ∧
      r.bucket_range.length ≤ 5) ∧
    (∃ s' r, distribute (initState [2] 4) [5] 4 = .ok (s', r) ∧
      r.bucket_range.length ≤ 5) :=
  ⟨(distribute_validation (initState [2] 4) [5] 1 (Or.inl (by decide))
      (by decide)).2.1,
   (distribute_validation (initState [2] 4) [5] 1 (Or.inl (by decide))
      (by decide)).2.2 ⟨by decide, by decide⟩,
   (distribute_validation (initState [2] 4) [5] 4 (Or.inl (by decide))
      (by decide)).2.2 ⟨by decide, by decide⟩⟩

/-- Witness for C10 at input rows `[[1],[2]]`, index list `[1]`, gradient
`[[3]]`, 2 input rows of width 1. -/
theorem gather_fprop_bprop_adjoint_witness :
    (gather_fprop [[1], [2]] [1])[0]? = some [2] ∧
    (gather_bprop [[3]] [1] 2 1)[0]? = some [0] ∧
    (gather_bprop [[3]] [1] 2 1)[1]? = some [3] :=
  ⟨(gather_fprop_bprop_adjoint [[1], [2]] [[3]] [1] 2 1 (by decide)
      (by decide) (by decide)).1 0 (by decide),
   (gather_fprop_bprop_adjoint [[1], [2]] [[3]] [1] 2 1 (by decide)
      (by decide) (by decide)).2.1 0 (by decide) (by decide),
   (gather_fprop_bprop_adjoint [[1], [2]] [[3]] [1] 2 1 (by decide)
      (by decide) (by decide)).2.2 0 (by decide)⟩

end HugeCTR
